import Mathlib

/-!
# Verification of the VirtuoSoS MIDI routing and note-fixing core

Shallow embedding of the parts of the repository that the specification's
claims are about:

* `src/modules/play.py` — `fix_short_notes` (the offline short-note
  extension transform) and `comprehensive_all_notes_off` (the panic flush);
* `src/instruments/base.py` — `BaseInstrument.is_my_channel`,
  `BaseInstrument.set_output_channel`;
* `src/instruments/empads.py` — `Empads.process_message`,
  `Empads._send_auto_note_off`, `Empads.emergency_stop_all_notes`, modelled
  as a state machine over explicit interleavings of the locked sections.

Machine integers are embedded as `Nat`/`Int` (MIDI data bytes are `Nat`,
times and tick counts are `Int` so that negative durations behave as in
Python).  Timestamps carried by messages in a track are the `mido` delta
times; absolute times are their running sums, exactly as the source
computes them.
-/

/-- One `mido.Message` as the repository uses them: the channel voice
messages (`note_on`, `note_off`, `control_change`, `program_change`,
`pitchwheel`, `aftertouch`, `polytouch`), the `set_tempo` meta message that
`fix_short_notes` scans for, and an opaque constructor for every other
kind of message (meta or sysex), which none of the embedded code inspects
beyond noting that it carries no channel. -/
inductive MidiMsg where
  | noteOn (channel note velocity : ℕ)
  | noteOff (channel note velocity : ℕ)
  | controlChange (channel control value : ℕ)
  | programChange (channel program : ℕ)
  | pitchwheel (channel : ℕ) (pitch : ℤ)
  | aftertouch (channel value : ℕ)
  | polytouch (channel note value : ℕ)
  | setTempo (tempo : ℕ)
  | otherMeta (tag : ℕ)
  deriving DecidableEq, Repr

namespace MidiMsg

/-- `hasattr(msg, 'channel')` together with the channel value: the seven
channel voice message kinds carry a channel, meta messages do not. -/
def channelOf : MidiMsg → Option ℕ
  | noteOn ch _ _ => some ch
  | noteOff ch _ _ => some ch
  | controlChange ch _ _ => some ch
  | programChange ch _ => some ch
  | pitchwheel ch _ => some ch
  | aftertouch ch _ => some ch
  | polytouch ch _ _ => some ch
  | setTempo _ => none
  | otherMeta _ => none

/-- A note message (`note_on` or `note_off`), as opposed to the
control-change messages of the panic flush. -/
def isNote : MidiMsg → Bool
  | noteOn _ _ _ => true
  | noteOff _ _ _ => true
  | _ => false

end MidiMsg

/-- A MIDI track as `mido` presents it: a list of messages, each carrying
its delta time (`msg.time`).  The embedding stores the delta alongside the
message value. -/
abbrev MidiTrack := List (ℤ × MidiMsg)

/-! ## `fix_short_notes` (src/modules/play.py, lines 325–435) -/

/-- The first `set_tempo` message of a track, if any — the inner loop of
the tempo scan, whose `break` stops at the first tempo message of the
current track. -/
def firstTempoOfTrack (track : MidiTrack) : Option ℕ :=
  track.findSome? fun p =>
    match p.2 with
    | .setTempo t => some t
    | _ => none

/-- The tempo scan of `fix_short_notes` (lines 342–350):
`microseconds_per_beat` starts at the 120-BPM default `500000`; then for
each track in order, if the track contains a `set_tempo` message the first
one overwrites the current value (the `break` only leaves the inner loop). -/
def fileTempo (tracks : List MidiTrack) : ℕ :=
  tracks.foldl (fun acc track => (firstTempoOfTrack track).getD acc) 500000

/-- Line 353: `min_duration_ticks = int((min_duration_ms * 1000 *
ticks_per_beat) / microseconds_per_beat)`.  All quantities are
non-negative, so Python's `int(·)` of the float quotient is the floor,
embedded as `Nat` floor division (idealizing the binary floating-point
division as exact, which it is at every input used below). -/
def minDurationTicks (minDurationMs ticksPerBeat microsecondsPerBeat : ℕ) : ℕ :=
  minDurationMs * 1000 * ticksPerBeat / microsecondsPerBeat

/-- Lines 363–369: conversion of a track to absolute time.  `cur` is the
running `current_time`; each message is paired with the cumulative sum of
the delta times up to and including its own. -/
def absoluteMessages (cur : ℤ) : MidiTrack → MidiTrack
  | [] => []
  | (d, m) :: rest => (cur + d, m) :: absoluteMessages (cur + d) rest

/-- The `active_notes` dictionary of the walk: an association list from
`(channel, note)` keys to the stack of pending `note_on` absolute times.
Insertion order of keys is kept (Python dict order); each stack appends new
times at the end and pops from the end, as `list.append`/`list.pop` do. -/
abbrev NoteStacks := List ((ℕ × ℕ) × List ℤ)

/-- Lines 377–381: push an attack time.  `if key not in active_notes:
active_notes[key] = []` followed by `active_notes[key].append(abs_time)` —
a fresh key is appended at the end of the dictionary, an existing key has
the time appended to its stack. -/
def stackPush (k : ℕ × ℕ) (t : ℤ) : NoteStacks → NoteStacks
  | [] => [(k, [t])]
  | (k', v) :: rest =>
      if k' = k then (k', v ++ [t]) :: rest else (k', v) :: stackPush k t rest

/-- Lines 386–387 and 404–406: `if key in active_notes and
active_notes[key]: note_on_time = active_notes[key].pop()`, followed at the
end of the branch by `if not active_notes[key]: del active_notes[key]`.
Returns the popped (most recent) time and the updated dictionary, or `none`
when the key is absent or its stack empty. -/
def stackPop (k : ℕ × ℕ) : NoteStacks → Option (ℤ × NoteStacks)
  | [] => none
  | (k', v) :: rest =>
      if k' = k then
        match v.getLast? with
        | none => none
        | some t =>
            some (t, if v.dropLast = [] then rest else (k', v.dropLast) :: rest)
      else
        match stackPop k rest with
        | none => none
        | some (t, rest') => some (t, (k', v) :: rest')

/-- One step of the walk over `absolute_messages` (lines 375–406).  The
state is the `active_notes` dictionary together with the
`additional_note_offs` accumulated so far (each a pair of extended absolute
time and synthetic message).  A `note_on` with positive velocity pushes its
time; a `note_off` or a velocity-zero `note_on` pops the most recent attack
and, when the duration is strictly below `minTicks`, appends one synthetic
`note_off` with velocity 0 at `note_on_time + min_duration_ticks`; every
other message leaves the state unchanged. -/
def fixStep (minTicks : ℤ) (s : NoteStacks × MidiTrack) (e : ℤ × MidiMsg) :
    NoteStacks × MidiTrack :=
  match e.2 with
  | .noteOn ch n v =>
      if v > 0 then
        (stackPush (ch, n) e.1 s.1, s.2)
      else
        match stackPop (ch, n) s.1 with
        | none => s
        | some (tOn, active') =>
            if e.1 - tOn < minTicks then
              (active', s.2 ++ [(tOn + minTicks, .noteOff ch n 0)])
            else
              (active', s.2)
  | .noteOff ch n _ =>
      match stackPop (ch, n) s.1 with
      | none => s
      | some (tOn, active') =>
          if e.1 - tOn < minTicks then
            (active', s.2 ++ [(tOn + minTicks, .noteOff ch n 0)])
          else
            (active', s.2)
  | _ => s

/-- Lines 408–416: after the walk, every attack time still on a stack
(orphaned `note_on` without `note_off`) produces one synthetic `note_off`
at `note_on_time + min_duration_ticks`.  Keys are visited in dictionary
order and each stack bottom-to-top, as the Python `for` loops do. -/
def orphanOffs (minTicks : ℤ) (active : NoteStacks) : MidiTrack :=
  active.foldr
    (fun kv acc => kv.2.map (fun t => (t + minTicks, MidiMsg.noteOff kv.1.1 kv.1.2 0)) ++ acc)
    []

/-- The complete `additional_note_offs` list for one track: the synthetic
releases recorded during the walk, followed by the orphan releases. -/
def additionalNoteOffs (minTicks : ℤ) (absMsgs : MidiTrack) : MidiTrack :=
  let r := absMsgs.foldl (fixStep minTicks) ([], [])
  r.2 ++ orphanOffs minTicks r.1

/-- Insertion of one timed message into a list, before the first entry with
a strictly larger time and after every entry with a smaller-or-equal time.
Folding this over the list reproduces `all_messages.sort(key=lambda x:
x[0])` (line 422): Python's sort is stable, and the stable sort by key is
unique, namely this insertion sort. -/
def insertByTime (x : ℤ × MidiMsg) : MidiTrack → MidiTrack
  | [] => [x]
  | y :: ys => if y.1 < x.1 then y :: insertByTime x ys else x :: y :: ys

/-- The stable sort by absolute time of line 422. -/
def sortByTime : MidiTrack → MidiTrack
  | [] => []
  | x :: xs => insertByTime x (sortByTime xs)

/-- Lines 424–430: re-derivation of delta times.  `last` is `last_time`;
each output message gets `msg.time = abs_time - last_time`. -/
def toDeltas (last : ℤ) : MidiTrack → MidiTrack
  | [] => []
  | (t, m) :: rest => (t - last, m) :: toDeltas t rest

/-- The sorted absolute-time form of one processed track: original
messages (in absolute time) together with the additional `note_off`s,
sorted stably by time (lines 418–422). -/
def fixTrackSorted (minTicks : ℤ) (track : MidiTrack) : MidiTrack :=
  sortByTime
    (absoluteMessages 0 track ++ additionalNoteOffs minTicks (absoluteMessages 0 track))

/-- One track of the output of `fix_short_notes`: the sorted messages,
re-encoded with delta times starting from `last_time = 0`. -/
def fixTrack (minTicks : ℤ) (track : MidiTrack) : MidiTrack :=
  toDeltas 0 (fixTrackSorted minTicks track)

/-- `fix_short_notes` (lines 325–435): compute the tempo and the tick
threshold from the file, then rebuild every track. -/
def fixShortNotes (minDurationMs ticksPerBeat : ℕ) (tracks : List MidiTrack) :
    List MidiTrack :=
  let mt : ℤ := (minDurationTicks minDurationMs ticksPerBeat (fileTempo tracks) : ℤ)
  tracks.map (fixTrack mt)

/-! ## `comprehensive_all_notes_off` (src/modules/play.py, lines 187–272) -/

/-- The messages sent for one channel in one round of the panic flush
(lines 207–262), in emission order: All Sound Off (CC 120), All Notes Off
(CC 123), for every note `0..127` a velocity-0 `note_on` followed by an
explicit `note_off`, then Reset All Controllers (CC 121), Sustain Off
(CC 64), Soft Pedal Off (CC 67) and Sostenuto Off (CC 66). -/
def channelFlushMsgs (ch : ℕ) : List MidiMsg :=
  [MidiMsg.controlChange ch 120 0, MidiMsg.controlChange ch 123 0]
    ++ (List.range 128).foldr
        (fun n acc => MidiMsg.noteOn ch n 0 :: MidiMsg.noteOff ch n 0 :: acc) []
    ++ [MidiMsg.controlChange ch 121 0, MidiMsg.controlChange ch 64 0,
        MidiMsg.controlChange ch 67 0, MidiMsg.controlChange ch 66 0]

/-- One round of the flush: the per-channel sequence for channels 0..15 in
order (line 207). -/
def panicRound : List MidiMsg :=
  (List.range 16).foldr (fun ch acc => channelFlushMsgs ch ++ acc) []

/-- The full message sequence sent by `comprehensive_all_notes_off`: three
identical rounds (line 203).  The settling `time.sleep` calls emit no
messages and are not represented. -/
def comprehensiveAllNotesOff : List MidiMsg :=
  panicRound ++ panicRound ++ panicRound

/-! ## `BaseInstrument` (src/instruments/base.py) -/

/-- `is_my_channel` (lines 29–31): `hasattr(msg, 'channel') and msg.channel
== self.midi_channel`. -/
def isMyChannel (midiChannel : ℕ) (msg : MidiMsg) : Bool :=
  msg.channelOf = some midiChannel

/-- `set_output_channel` (lines 77–80): the stored output channel becomes
`max(0, min(15, channel))`.  The argument is any Python integer, hence `ℤ`. -/
def setOutputChannel (channel : ℤ) : ℤ :=
  max 0 (min 15 channel)

/-! ## `Empads.process_message` return value (src/instruments/empads.py, lines 19–61) -/

/-- The value returned by `Empads.process_message`, which depends only on
`is_enabled`, the instrument's input channel and the message: `False` when
disabled or the channel test fails (line 21), `True` for `note_on` with any
velocity, for `note_off`, and for `control_change` / `program_change` /
`pitchwheel` (lines 24–59), and the final `return False` (line 61) for
every other message. -/
def processClaimed (enabled : Bool) (midiChannel : ℕ) (msg : MidiMsg) : Bool :=
  if ¬ enabled ∨ ¬ isMyChannel midiChannel msg then false
  else
    match msg with
    | .noteOn _ _ v => if v > 0 then true else true
    | .noteOff _ _ _ => true
    | .controlChange _ _ _ => true
    | .programChange _ _ => true
    | .pitchwheel _ _ => true
    | _ => false

/-- The message kinds for which some branch of the `if`/`elif` chain of
`process_message` returns `True`. -/
def claimableKind : MidiMsg → Bool
  | .noteOn _ _ _ => true
  | .noteOff _ _ _ => true
  | .controlChange _ _ _ => true
  | .programChange _ _ => true
  | .pitchwheel _ _ => true
  | _ => false

/-! ## `Empads.emergency_stop_all_notes` (src/instruments/empads.py, lines 123–167) -/

/-- Lines 134–146: the list of notes to release.  First every active note
without a prior note-off, then every recent note without a prior note-off
not already listed, and when that list is empty the drum-range fallback
`range(36, 82)`.  The Python sets are embedded as duplicate-free lists in
iteration order. -/
def notesToStop (sounding recentNotes sentOff : List ℕ) : List ℕ :=
  let base := sounding.filter fun n => ¬ n ∈ sentOff
  let withRecent := recentNotes.foldl
    (fun acc n => if n ∈ sentOff ∨ n ∈ acc then acc else acc ++ [n]) base
  if withRecent = [] then List.range' 36 46 else withRecent

/-- Lines 148–152: the per-note release loop.  Each note produces one
attempted `note_on` with velocity 0 on the output channel
(`send_note_off_as_note_on`, lines 90–98); `sendOk` tells whether the
sink accepted it.  A failure is caught (both inside
`send_note_off_as_note_on` and by the loop's own `try`/`except`) and the
loop continues with the next note. -/
def emergencyReleaseLoop (outCh : ℕ) (sendOk : ℕ → Bool) : List ℕ → List (MidiMsg × Bool)
  | [] => []
  | n :: rest => (MidiMsg.noteOn outCh n 0, sendOk n) :: emergencyReleaseLoop outCh sendOk rest

/-- The mutable sets of an `Empads` instance that
`emergency_stop_all_notes` reads and clears. -/
structure EmpadsSets where
  pendingTimerNotes : List (ℕ × ℕ)
  sounding : List ℕ
  recentNotes : List ℕ
  sentOff : List ℕ
  deriving DecidableEq, Repr

/-- `emergency_stop_all_notes` (lines 123–167): cancel and clear all
pending timers, attempt one release per note of `notesToStop`, attempt one
All Notes Off (`ControlChange 123 0`, lines 154–163, its own failure also
caught), and clear every set.  The result is the attempt log — each
message paired with the sink's success — and the state after the call. -/
def emergencyStopAll (outCh : ℕ) (sendOk : ℕ → Bool) (ccOk : Bool)
    (s : EmpadsSets) : List (MidiMsg × Bool) × EmpadsSets :=
  (emergencyReleaseLoop outCh sendOk (notesToStop s.sounding s.recentNotes s.sentOff)
      ++ [(MidiMsg.controlChange outCh 123 0, ccOk)],
   { pendingTimerNotes := [], sounding := [], recentNotes := [], sentOff := [] })

/-! ## `Empads` timer interleaving model (src/instruments/empads.py)

`process_message` (attack branch, lines 24–43), `_send_auto_note_off`
(lines 77–88), `stop` (lines 113–121) and `emergency_stop_all_notes`
(lines 123–167) each execute under `self.lock`, so a run of the instrument
is a sequence of these atomic sections.  A `threading.Timer`'s callback
first waits for the delay, then checks the timer's `finished` event and, if
it is not set, runs the body; `Timer.cancel()` only sets that event, so a
cancel that happens at or after the timer's deadline can arrive after the
check has already passed, in which case the body still runs (blocking on
the lock until the cancelling section leaves it).  The model therefore
keeps a timer alive when the cancel happens at or after its deadline, and
lets any live timer fire at any time at or after its deadline — a
superset of the real schedules that contains every schedule used below. -/

/-- The state of one `Empads` instance: the pending-timer table
(note ↦ timer id), the set of timers whose callback may still run (id,
note, deadline), the `active_notes`, `notes_sent_off` and `recent_notes`
sets, a fresh-id counter, and the log of messages sent to the output port,
each with its emission time. -/
structure EmpadsState where
  pending : List (ℕ × ℕ)
  live : List (ℕ × ℕ × ℤ)
  sounding : List ℕ
  sentOff : List ℕ
  recentNotes : List ℕ
  nextId : ℕ
  out : List (ℤ × MidiMsg)
  deriving DecidableEq, Repr

/-- The fresh instrument: no timers, no notes, nothing sent. -/
def initEmpads : EmpadsState :=
  { pending := [], live := [], sounding := [], sentOff := [], recentNotes := [],
    nextId := 0, out := [] }

/-- Adding an element to a Python set embedded as a duplicate-free list. -/
def setInsert (n : ℕ) (l : List ℕ) : List ℕ :=
  if n ∈ l then l else l ++ [n]

/-- Lines 27–29: `self.pending_timers[msg.note].cancel()` followed by `del
self.pending_timers[msg.note]`, at wall-clock time `t`.  The cancel kills
the timer for sure only when it happens strictly before the timer's
deadline; at or after the deadline the callback may already have passed its
`finished` check, so the timer stays live. -/
def cancelPendingTimer (t : ℤ) (n : ℕ) (s : EmpadsState) : EmpadsState :=
  match s.pending.find? (fun p => p.1 = n) with
  | none => s
  | some (_, tid) =>
      { s with
        pending := s.pending.filter (fun p => p.1 ≠ n),
        live :=
          match s.live.find? (fun q => q.1 = tid) with
          | some (_, _, dl) =>
              if t < dl then s.live.filter (fun q => q.1 ≠ tid) else s.live
          | none => s.live }

/-- The `note_on`-with-positive-velocity branch of `process_message`
(lines 24–43), executed atomically under the lock at time `t`: cancel and
drop any pending timer for the note, remove the note from
`notes_sent_off`, add it to `recent_notes`, send the attack on the output
channel (`send_note_on`, which also marks the note active), and schedule a
fresh auto-release timer with deadline `t + delay`.  A velocity-0
`note_on` is ignored (lines 45–49). -/
def attackStep (outCh : ℕ) (delay t : ℤ) (n v : ℕ) (s : EmpadsState) : EmpadsState :=
  if v = 0 then s
  else
    let s1 := cancelPendingTimer t n s
    let s2 := { s1 with
      sentOff := s1.sentOff.filter (fun m => m ≠ n),
      recentNotes := setInsert n s1.recentNotes,
      out := s1.out ++ [(t, MidiMsg.noteOn outCh n v)],
      sounding := setInsert n s1.sounding }
    { s2 with
      pending := s2.pending ++ [(n, s2.nextId)],
      live := s2.live ++ [(s2.nextId, n, t + delay)],
      nextId := s2.nextId + 1 }

/-- `_send_auto_note_off` (lines 77–88) for the timer `tid`, running at
time `tf`: allowed only for a live timer at or past its deadline.  The body
removes the note's pending-table entry whatever timer it now names, and
sends the release (`note_on` velocity 0, via `send_note_off_as_note_on`)
only when the note is still active and not yet released, marking it
released.  The timer itself runs at most once. -/
def fireStep (outCh : ℕ) (tid : ℕ) (tf : ℤ) (s : EmpadsState) : EmpadsState :=
  match s.live.find? (fun q => q.1 = tid) with
  | none => s
  | some (_, n, dl) =>
      if dl ≤ tf then
        let s1 := { s with
          live := s.live.filter (fun q => q.1 ≠ tid),
          pending := s.pending.filter (fun p => p.1 ≠ n) }
        if n ∈ s1.sounding ∧ ¬ n ∈ s1.sentOff then
          { s1 with
            out := s1.out ++ [(tf, MidiMsg.noteOn outCh n 0)],
            sounding := s1.sounding.filter (fun m => m ≠ n),
            sentOff := s1.sentOff ++ [n] }
        else s1
      else s

/-- `stop` (lines 113–121) at time `t`: cancel every pending timer and
clear all sets.  Timers cancelled at or after their deadline may still
fire, exactly as in `cancelPendingTimer`. -/
def stopStep (t : ℤ) (s : EmpadsState) : EmpadsState :=
  let s1 := s.pending.foldl (fun acc p => cancelPendingTimer t p.1 acc) s
  { s1 with pending := [], sounding := [], recentNotes := [], sentOff := [] }

/-- `emergency_stop_all_notes` (lines 123–167) at time `t`, with every
send succeeding: cancel and clear the timers, send the releases for
`notesToStop`, send All Notes Off, clear the sets. -/
def emergencyStep (outCh : ℕ) (t : ℤ) (s : EmpadsState) : EmpadsState :=
  let s1 := s.pending.foldl (fun acc p => cancelPendingTimer t p.1 acc) s
  { s1 with
    pending := [],
    out := s1.out
      ++ (notesToStop s1.sounding s1.recentNotes s1.sentOff).map
          (fun n => (t, MidiMsg.noteOn outCh n 0))
      ++ [(t, MidiMsg.controlChange outCh 123 0)],
    sounding := [], recentNotes := [], sentOff := [] }

/-- One atomic section of an `Empads` run. -/
inductive EmpadsAct where
  | attack (t : ℤ) (note velocity : ℕ)
  | fire (tid : ℕ) (t : ℤ)
  | stopCall (t : ℤ)
  | emergency (t : ℤ)
  deriving DecidableEq, Repr

/-- Execution of one interleaving of the instrument's atomic sections. -/
def runEmpads (outCh : ℕ) (delay : ℤ) (s : EmpadsState) : List EmpadsAct → EmpadsState
  | [] => s
  | a :: rest =>
      runEmpads outCh delay
        (match a with
         | .attack t n v => attackStep outCh delay t n v s
         | .fire tid tf => fireStep outCh tid tf s
         | .stopCall t => stopStep t s
         | .emergency t => emergencyStep outCh t s)
        rest

/-! ## Specification-side definitions

Each definition below follows the words of the specification rather than
the source; the claims compare them with the source-side definitions
above. -/

/-- A matched attack/release pair: the `(channel, note)` key, the attack's
absolute time and the release's absolute time. -/
abbrev NotePair := (ℕ × ℕ) × ℤ × ℤ

/-- An orphaned attack: its `(channel, note)` key and absolute time. -/
abbrev OrphanAttack := (ℕ × ℕ) × ℤ

/-- Modelled from the spec (§4.5, steps 2–4): the walk that maintains, per
`(channel, note)` key, a stack of pending attack times, pushes on an
attack, and on a release (explicit `note_off` or velocity-zero `note_on`)
pops the most recent pending attack for that key, recording the matched
pair — with no threshold test, the pairing alone. -/
def pairStep (s : NoteStacks × List NotePair) (e : ℤ × MidiMsg) :
    NoteStacks × List NotePair :=
  match e.2 with
  | .noteOn ch n v =>
      if v > 0 then
        (stackPush (ch, n) e.1 s.1, s.2)
      else
        match stackPop (ch, n) s.1 with
        | none => s
        | some (tOn, active') => (active', s.2 ++ [((ch, n), tOn, e.1)])
  | .noteOff ch n _ =>
      match stackPop (ch, n) s.1 with
      | none => s
      | some (tOn, active') => (active', s.2 ++ [((ch, n), tOn, e.1)])
  | _ => s

/-- Modelled from the spec (§4.5, steps 4–5): the LIFO pairing of a
track's events — the list of matched pairs in the order their releases
occur, and the attacks left unmatched at track end. -/
def specLifoPairs (absMsgs : MidiTrack) : List NotePair × List OrphanAttack :=
  let r := absMsgs.foldl pairStep ([], [])
  (r.2, r.1.foldr (fun kv acc => kv.2.map (fun t => (kv.1, t)) ++ acc) [])

/-- The synthetic releases the spec prescribes for the matched pairs: one
release at `attack_time + min_duration_ticks` for every pair whose
duration is strictly below the threshold, none for the others. -/
def shortPairOffs (minTicks : ℤ) (pairs : List NotePair) : MidiTrack :=
  (pairs.filter fun p => p.2.2 - p.2.1 < minTicks).map
    fun p => (p.2.1 + minTicks, MidiMsg.noteOff p.1.1 p.1.2 0)

/-- The synthetic releases the spec prescribes for the orphaned attacks:
one release at `attack_time + min_duration_ticks` each. -/
def orphanPairOffs (minTicks : ℤ) (orphans : List OrphanAttack) : MidiTrack :=
  orphans.map fun o => (o.2 + minTicks, MidiMsg.noteOff o.1.1 o.1.2 0)

/-- Modelled from the spec (claim C5's reading of §4.5): the tempo of the
`set_tempo` event found earliest in the file, scanning tracks in order and
each track front to back, defaulting to the 120-BPM constant `500000`. -/
def specEarliestTempo (tracks : List MidiTrack) : ℕ :=
  (firstTempoOfTrack tracks.flatten).getD 500000

/-- Modelled from the spec (§4.5): `min_duration_ticks =
round(min_duration_ms * 1000 * ticks_per_subdivision /
microseconds_per_subdivision)` — the mathematically rounded value of the
exact rational quotient. -/
def specRoundTicks (minDurationMs ticksPerBeat microsecondsPerBeat : ℕ) : ℤ :=
  round ((minDurationMs * 1000 * ticksPerBeat : ℚ) / (microsecondsPerBeat : ℚ))

/-- Modelled from the spec (§4.4): the per-channel panic sequence, "emit in
order: All-Sound-Off (CC120=0), All-Notes-Off (CC123=0), for every note
0..127 both a velocity-0 NoteOn and an explicit NoteOff, Reset-All-
Controllers (CC121=0), Sustain-Off (CC64=0), Soft-Pedal-Off (CC67=0),
Sostenuto-Off (CC66=0)". -/
def specChannelFlush (ch : ℕ) : List MidiMsg :=
  MidiMsg.controlChange ch 120 0 :: MidiMsg.controlChange ch 123 0 ::
    ((List.range 128).flatMap fun n => [MidiMsg.noteOn ch n 0, MidiMsg.noteOff ch n 0])
    ++ [MidiMsg.controlChange ch 121 0, MidiMsg.controlChange ch 64 0,
        MidiMsg.controlChange ch 67 0, MidiMsg.controlChange ch 66 0]

/-- Modelled from the spec (§4.4): `flush(sink)` — for 3 rounds, for each
of the 16 channels, the per-channel sequence. -/
def specPanicFlush : List MidiMsg :=
  (List.range 3).flatMap fun _ => (List.range 16).flatMap specChannelFlush

/-! ## Lemmas about the stable sort and the delta re-encoding -/

theorem insertByTime_perm (x : ℤ × MidiMsg) (l : MidiTrack) :
    (insertByTime x l).Perm (x :: l) := by
  induction l with
  | nil => exact List.Perm.refl _
  | cons y ys ih =>
      by_cases h : y.1 < x.1
      · simpa [insertByTime, h] using (ih.cons y).trans (List.Perm.swap x y ys)
      · simp [insertByTime, h]

theorem sortByTime_perm (l : MidiTrack) : (sortByTime l).Perm l := by
  induction l with
  | nil => exact List.Perm.refl _
  | cons x xs ih => exact (insertByTime_perm x (sortByTime xs)).trans (ih.cons x)

theorem mem_insertByTime {x y : ℤ × MidiMsg} {l : MidiTrack} :
    y ∈ insertByTime x l ↔ y = x ∨ y ∈ l := by
  rw [(insertByTime_perm x l).mem_iff, List.mem_cons]

theorem sorted_insertByTime (x : ℤ × MidiMsg) {l : MidiTrack}
    (h : l.Pairwise (fun a b => a.1 ≤ b.1)) :
    (insertByTime x l).Pairwise (fun a b => a.1 ≤ b.1) := by
  induction l with
  | nil => simp [insertByTime]
  | cons y ys ih =>
      rcases List.pairwise_cons.mp h with ⟨hy, hys⟩
      by_cases hlt : y.1 < x.1
      · rw [insertByTime, if_pos hlt]
        refine List.pairwise_cons.mpr ⟨?_, ih hys⟩
        intro z hz
        rcases mem_insertByTime.mp hz with rfl | hz
        · exact le_of_lt hlt
        · exact hy z hz
      · rw [insertByTime, if_neg hlt]
        refine List.pairwise_cons.mpr ⟨?_, h⟩
        intro z hz
        rcases List.mem_cons.mp hz with rfl | hz
        · exact le_of_not_lt hlt
        · exact le_trans (le_of_not_lt hlt) (hy z hz)

theorem sorted_sortByTime (l : MidiTrack) :
    (sortByTime l).Pairwise (fun a b => a.1 ≤ b.1) := by
  induction l with
  | nil => simp [sortByTime]
  | cons x xs ih => exact sorted_insertByTime x ih

theorem filter_insertByTime (t : ℤ) (x : ℤ × MidiMsg) (l : MidiTrack) :
    (insertByTime x l).filter (fun p => decide (p.1 = t)) =
      (if x.1 = t then [x] else []) ++ l.filter (fun p => decide (p.1 = t)) := by
  induction l with
  | nil => by_cases hx : x.1 = t <;> simp [insertByTime, hx]
  | cons y ys ih =>
      by_cases hlt : y.1 < x.1
      · rw [insertByTime, if_pos hlt]
        by_cases hy : y.1 = t
        · have hx : ¬ x.1 = t := by omega
          simp [List.filter_cons, hy, hx, ih]
        · simp [List.filter_cons, hy, ih]
      · rw [insertByTime, if_neg hlt]
        by_cases hx : x.1 = t <;> simp [List.filter_cons, hx]

theorem filter_sortByTime (t : ℤ) (l : MidiTrack) :
    (sortByTime l).filter (fun p => decide (p.1 = t)) =
      l.filter (fun p => decide (p.1 = t)) := by
  induction l with
  | nil => rfl
  | cons x xs ih =>
      rw [sortByTime, filter_insertByTime, ih, List.filter_cons]
      by_cases hx : x.1 = t <;> simp [hx]

theorem absoluteMessages_toDeltas (last : ℤ) (l : MidiTrack) :
    absoluteMessages last (toDeltas last l) = l := by
  induction l generalizing last with
  | nil => rfl
  | cons p rest ih =>
      obtain ⟨t, m⟩ := p
      simp only [toDeltas, absoluteMessages, add_sub_cancel]
      exact congrArg _ (ih t)

theorem absoluteMessages_map_snd (cur : ℤ) (l : MidiTrack) :
    (absoluteMessages cur l).map Prod.snd = l.map Prod.snd := by
  induction l generalizing cur with
  | nil => rfl
  | cons p rest ih =>
      obtain ⟨d, m⟩ := p
      simp only [absoluteMessages, List.map_cons]
      exact congrArg _ (ih (cur + d))

theorem toDeltas_nonneg {l : MidiTrack} {last : ℤ}
    (hs : l.Pairwise (fun a b => a.1 ≤ b.1)) (hlast : ∀ p ∈ l, last ≤ p.1) :
    ∀ q ∈ toDeltas last l, 0 ≤ q.1 := by
  induction l generalizing last with
  | nil => intro q hq; simp [toDeltas] at hq
  | cons p rest ih =>
      obtain ⟨t, m⟩ := p
      rcases List.pairwise_cons.mp hs with ⟨hhead, hrest⟩
      intro q hq
      rcases List.mem_cons.mp hq with rfl | hq
      · have := hlast (t, m) (List.mem_cons_self _ _)
        simpa using this
      · exact ih hrest (fun p hp => hhead p hp) q hq

/-! ## Lemmas about the note-fixing walk -/

theorem absoluteMessages_time_nonneg {cur : ℤ} {l : MidiTrack}
    (hcur : 0 ≤ cur) (hd : ∀ p ∈ l, 0 ≤ p.1) :
    ∀ q ∈ absoluteMessages cur l, 0 ≤ q.1 := by
  induction l generalizing cur with
  | nil => intro q hq; simp [absoluteMessages] at hq
  | cons p rest ih =>
      obtain ⟨d, m⟩ := p
      intro q hq
      have hd0 : 0 ≤ d := hd (d, m) (List.mem_cons_self _ _)
      rcases List.mem_cons.mp hq with rfl | hq
      · simpa using add_nonneg hcur hd0
      · exact ih (add_nonneg hcur hd0) (fun p hp => hd p (List.mem_cons_of_mem _ hp)) q hq

/-- All attack times stored in the `active_notes` stacks are non-negative. -/
def StacksNonneg (st : NoteStacks) : Prop :=
  ∀ kv ∈ st, ∀ t ∈ kv.2, (0 : ℤ) ≤ t

theorem stackPush_nonneg {k : ℕ × ℕ} {t : ℤ} {st : NoteStacks}
    (hst : StacksNonneg st) (ht : 0 ≤ t) : StacksNonneg (stackPush k t st) := by
  induction st with
  | nil =>
      intro kv hkv u hu
      simp only [stackPush, List.mem_singleton] at hkv
      subst hkv
      simp only [List.mem_singleton] at hu
      omega
  | cons hd rest ih =>
      obtain ⟨k', v⟩ := hd
      by_cases hk : k' = k
      · intro kv hkv u hu
        rw [stackPush, if_pos hk] at hkv
        rcases List.mem_cons.mp hkv with rfl | hkv
        · rcases List.mem_append.mp hu with hu | hu
          · exact hst (k', v) (List.mem_cons_self _ _) u hu
          · simp only [List.mem_singleton] at hu; omega
        · exact hst kv (List.mem_cons_of_mem _ hkv) u hu
      · intro kv hkv u hu
        rw [stackPush, if_neg hk] at hkv
        rcases List.mem_cons.mp hkv with rfl | hkv
        · exact hst (k', v) (List.mem_cons_self _ _) u hu
        · exact ih (fun kv h => hst kv (List.mem_cons_of_mem _ h)) kv hkv u hu

theorem stackPop_nonneg {k : ℕ × ℕ} {st : NoteStacks} {t : ℤ} {st' : NoteStacks}
    (hst : StacksNonneg st) (h : stackPop k st = some (t, st')) :
    0 ≤ t ∧ StacksNonneg st' := by
  induction st generalizing st' with
  | nil => simp [stackPop] at h
  | cons hd rest ih =>
      obtain ⟨k', v⟩ := hd
      by_cases hk : k' = k
      · rw [stackPop, if_pos hk] at h
        cases hv : v.getLast? with
        | none => rw [hv] at h; exact absurd h (by simp)
        | some u =>
            rw [hv] at h
            simp only [Option.some.injEq, Prod.mk.injEq] at h
            obtain ⟨rfl, rfl⟩ := h
            have hu : u ∈ v := List.mem_of_mem_getLast? (by rw [hv]; rfl)
            refine ⟨hst (k', v) (List.mem_cons_self _ _) u hu, ?_⟩
            by_cases hvd : v.dropLast = []
            · rw [if_pos hvd]
              exact fun kv h => hst kv (List.mem_cons_of_mem _ h)
            · rw [if_neg hvd]
              intro kv hkv u hu'
              rcases List.mem_cons.mp hkv with rfl | hkv
              · exact hst (k', v) (List.mem_cons_self _ _) u
                  ((List.dropLast_sublist v).mem hu')
              · exact hst kv (List.mem_cons_of_mem _ hkv) u hu'
      · rw [stackPop, if_neg hk] at h
        cases hr : stackPop k rest with
        | none => rw [hr] at h; exact absurd h (by simp)
        | some p =>
            obtain ⟨u, rest'⟩ := p
            rw [hr] at h
            simp only [Option.some.injEq, Prod.mk.injEq] at h
            obtain ⟨rfl, rfl⟩ := h
            have hrest : StacksNonneg rest := fun kv h => hst kv (List.mem_cons_of_mem _ h)
            obtain ⟨ht, hrest'⟩ := ih hrest hr
            refine ⟨ht, ?_⟩
            intro kv hkv u' hu'
            rcases List.mem_cons.mp hkv with rfl | hkv
            · exact hst (k', v) (List.mem_cons_self _ _) u' hu'
            · exact hrest' kv hkv u' hu'

theorem fixStep_invariant {minTicks : ℤ} (hmt : 0 ≤ minTicks)
    {s : NoteStacks × MidiTrack} {e : ℤ × MidiMsg} (he : 0 ≤ e.1)
    (h1 : StacksNonneg s.1) (h2 : ∀ p ∈ s.2, 0 ≤ p.1) :
    StacksNonneg (fixStep minTicks s e).1 ∧ ∀ p ∈ (fixStep minTicks s e).2, 0 ≤ p.1 := by
  obtain ⟨t, m⟩ := e
  obtain ⟨active, offs⟩ := s
  cases m with
  | noteOn ch n v =>
      by_cases hv : v > 0
      · rw [show fixStep minTicks (active, offs) (t, MidiMsg.noteOn ch n v) =
            (stackPush (ch, n) t active, offs) by simp [fixStep, hv]]
        exact ⟨stackPush_nonneg h1 he, h2⟩
      · rw [show fixStep minTicks (active, offs) (t, MidiMsg.noteOn ch n v) =
            (match stackPop (ch, n) active with
             | none => (active, offs)
             | some (tOn, active') =>
                 if t - tOn < minTicks then
                   (active', offs ++ [(tOn + minTicks, MidiMsg.noteOff ch n 0)])
                 else (active', offs)) by simp [fixStep, hv]]
        cases hpop : stackPop (ch, n) active with
        | none => exact ⟨h1, h2⟩
        | some p =>
            obtain ⟨tOn, active'⟩ := p
            obtain ⟨htOn, hact'⟩ := stackPop_nonneg h1 hpop
            by_cases hdur : t - tOn < minTicks
            · refine ⟨by simpa [hdur] using hact', ?_⟩
              intro p hp
              simp only [hdur, if_pos, List.mem_append, List.mem_singleton] at hp
              rcases hp with hp | rfl
              · exact h2 p hp
              · simpa using add_nonneg htOn hmt
            · exact ⟨by simpa [hdur] using hact', by simpa [hdur] using h2⟩
  | noteOff ch n v =>
      rw [show fixStep minTicks (active, offs) (t, MidiMsg.noteOff ch n v) =
          (match stackPop (ch, n) active with
           | none => (active, offs)
           | some (tOn, active') =>
               if t - tOn < minTicks then
                 (active', offs ++ [(tOn + minTicks, MidiMsg.noteOff ch n 0)])
               else (active', offs)) from rfl]
      cases hpop : stackPop (ch, n) active with
      | none => exact ⟨h1, h2⟩
      | some p =>
          obtain ⟨tOn, active'⟩ := p
          obtain ⟨htOn, hact'⟩ := stackPop_nonneg h1 hpop
          by_cases hdur : t - tOn < minTicks
          · refine ⟨by simpa [hdur] using hact', ?_⟩
            intro p hp
            simp only [hdur, if_pos, List.mem_append, List.mem_singleton] at hp
            rcases hp with hp | rfl
            · exact h2 p hp
            · simpa using add_nonneg htOn hmt
          · exact ⟨by simpa [hdur] using hact', by simpa [hdur] using h2⟩
  | controlChange ch c val => exact ⟨h1, h2⟩
  | programChange ch p => exact ⟨h1, h2⟩
  | pitchwheel ch p => exact ⟨h1, h2⟩
  | aftertouch ch val => exact ⟨h1, h2⟩
  | polytouch ch n val => exact ⟨h1, h2⟩
  | setTempo tp => exact ⟨h1, h2⟩
  | otherMeta tag => exact ⟨h1, h2⟩

theorem foldl_fixStep_invariant {minTicks : ℤ} (hmt : 0 ≤ minTicks) {l : MidiTrack} :
    ∀ s : NoteStacks × MidiTrack, StacksNonneg s.1 → (∀ p ∈ s.2, 0 ≤ p.1) →
    (∀ e ∈ l, 0 ≤ e.1) →
    StacksNonneg (l.foldl (fixStep minTicks) s).1 ∧
      ∀ p ∈ (l.foldl (fixStep minTicks) s).2, 0 ≤ p.1 := by
  induction l with
  | nil => exact fun s h1 h2 _ => ⟨h1, h2⟩
  | cons e rest ih =>
      intro s h1 h2 hl
      have he : 0 ≤ e.1 := hl e (List.mem_cons_self _ _)
      obtain ⟨h1', h2'⟩ := fixStep_invariant hmt he h1 h2
      exact ih _ h1' h2' (fun e' he' => hl e' (List.mem_cons_of_mem _ he'))

theorem fixStep_offs_shape (minTicks : ℤ) (s : NoteStacks × MidiTrack) (e : ℤ × MidiMsg) :
    ∀ p ∈ (fixStep minTicks s e).2, p ∈ s.2 ∨ ∃ ch n, p.2 = MidiMsg.noteOff ch n 0 := by
  obtain ⟨t, m⟩ := e
  obtain ⟨active, offs⟩ := s
  cases m with
  | noteOn ch n v =>
      by_cases hv : v > 0
      · rw [show fixStep minTicks (active, offs) (t, MidiMsg.noteOn ch n v) =
            (stackPush (ch, n) t active, offs) by simp [fixStep, hv]]
        exact fun p hp => Or.inl hp
      · rw [show fixStep minTicks (active, offs) (t, MidiMsg.noteOn ch n v) =
            (match stackPop (ch, n) active with
             | none => (active, offs)
             | some (tOn, active') =>
                 if t - tOn < minTicks then
                   (active', offs ++ [(tOn + minTicks, MidiMsg.noteOff ch n 0)])
                 else (active', offs)) by simp [fixStep, hv]]
        cases hpop : stackPop (ch, n) active with
        | none => exact fun p hp => Or.inl hp
        | some q =>
            obtain ⟨tOn, active'⟩ := q
            by_cases hdur : t - tOn < minTicks
            · intro p hp
              simp only [hdur, if_pos, List.mem_append, List.mem_singleton] at hp
              rcases hp with hp | rfl
              · exact Or.inl hp
              · exact Or.inr ⟨ch, n, rfl⟩
            · intro p hp
              simp only [hdur, if_neg, ite_false] at hp
              exact Or.inl hp
  | noteOff ch n v =>
      rw [show fixStep minTicks (active, offs) (t, MidiMsg.noteOff ch n v) =
          (match stackPop (ch, n) active with
           | none => (active, offs)
           | some (tOn, active') =>
               if t - tOn < minTicks then
                 (active', offs ++ [(tOn + minTicks, MidiMsg.noteOff ch n 0)])
               else (active', offs)) from rfl]
      cases hpop : stackPop (ch, n) active with
      | none => exact fun p hp => Or.inl hp
      | some q =>
          obtain ⟨tOn, active'⟩ := q
          by_cases hdur : t - tOn < minTicks
          · intro p hp
            simp only [hdur, if_pos, List.mem_append, List.mem_singleton] at hp
            rcases hp with hp | rfl
            · exact Or.inl hp
            · exact Or.inr ⟨ch, n, rfl⟩
          · intro p hp
            simp only [hdur, if_neg, ite_false] at hp
            exact Or.inl hp
  | controlChange ch c val => exact fun p hp => Or.inl hp
  | programChange ch p => exact fun p hp => Or.inl hp
  | pitchwheel ch p => exact fun p hp => Or.inl hp
  | aftertouch ch val => exact fun p hp => Or.inl hp
  | polytouch ch n val => exact fun p hp => Or.inl hp
  | setTempo tp => exact fun p hp => Or.inl hp
  | otherMeta tag => exact fun p hp => Or.inl hp

theorem foldl_fixStep_offs_shape (minTicks : ℤ) (l : MidiTrack) :
    ∀ s : NoteStacks × MidiTrack, ∀ p ∈ (l.foldl (fixStep minTicks) s).2,
      p ∈ s.2 ∨ ∃ ch n, p.2 = MidiMsg.noteOff ch n 0 := by
  induction l with
  | nil => exact fun s p hp => Or.inl hp
  | cons e rest ih =>
      intro s p hp
      rcases ih (fixStep minTicks s e) p hp with hp' | hp'
      · exact fixStep_offs_shape minTicks s e p hp'
      · exact Or.inr hp'

theorem orphanOffs_shape (minTicks : ℤ) (active : NoteStacks) :
    ∀ p ∈ orphanOffs minTicks active, ∃ ch n, p.2 = MidiMsg.noteOff ch n 0 := by
  induction active with
  | nil => intro p hp; simp [orphanOffs] at hp
  | cons kv rest ih =>
      intro p hp
      rw [orphanOffs, List.foldr_cons, List.mem_append] at hp
      rcases hp with hp | hp
      · rcases List.mem_map.mp hp with ⟨u, _, rfl⟩
        exact ⟨kv.1.1, kv.1.2, rfl⟩
      · exact ih p hp

theorem orphanOffs_nonneg {minTicks : ℤ} (hmt : 0 ≤ minTicks) {active : NoteStacks}
    (h : StacksNonneg active) : ∀ p ∈ orphanOffs minTicks active, 0 ≤ p.1 := by
  induction active with
  | nil => intro p hp; simp [orphanOffs] at hp
  | cons kv rest ih =>
      intro p hp
      rw [orphanOffs, List.foldr_cons, List.mem_append] at hp
      rcases hp with hp | hp
      · rcases List.mem_map.mp hp with ⟨u, hu, rfl⟩
        exact add_nonneg (h kv (List.mem_cons_self _ _) u hu) hmt
      · exact ih (fun kv' h' => h kv' (List.mem_cons_of_mem _ h')) p hp

theorem additionalNoteOffs_shape (minTicks : ℤ) (l : MidiTrack) :
    ∀ p ∈ additionalNoteOffs minTicks l, ∃ ch n, p.2 = MidiMsg.noteOff ch n 0 := by
  intro p hp
  rw [additionalNoteOffs, List.mem_append] at hp
  rcases hp with hp | hp
  · rcases foldl_fixStep_offs_shape minTicks l ([], []) p hp with hp' | hp'
    · simp at hp'
    · exact hp'
  · exact orphanOffs_shape minTicks _ p hp

theorem additionalNoteOffs_nonneg {minTicks : ℤ} (hmt : 0 ≤ minTicks) {l : MidiTrack}
    (hl : ∀ e ∈ l, 0 ≤ e.1) : ∀ p ∈ additionalNoteOffs minTicks l, 0 ≤ p.1 := by
  intro p hp
  have hbase : StacksNonneg ([] : NoteStacks) := by intro kv hkv; simp at hkv
  have hoffs : ∀ q ∈ ([] : MidiTrack), (0 : ℤ) ≤ q.1 := by intro q hq; simp at hq
  obtain ⟨h1, h2⟩ := foldl_fixStep_invariant hmt (l := l) ([], []) hbase hoffs hl
  rw [additionalNoteOffs, List.mem_append] at hp
  rcases hp with hp | hp
  · exact h2 p hp
  · exact orphanOffs_nonneg hmt h1 p hp

/-! ## The walk refines the spec's LIFO pairing -/

theorem shortPairOffs_append (minTicks : ℤ) (ps qs : List NotePair) :
    shortPairOffs minTicks (ps ++ qs) =
      shortPairOffs minTicks ps ++ shortPairOffs minTicks qs := by
  simp [shortPairOffs, List.filter_append]

theorem shortPairOffs_single_short {minTicks : ℤ} {ch n : ℕ} {tOn t : ℤ}
    (h : t - tOn < minTicks) :
    shortPairOffs minTicks [((ch, n), tOn, t)] = [(tOn + minTicks, MidiMsg.noteOff ch n 0)] := by
  simp [shortPairOffs, List.filter_cons, h]

theorem shortPairOffs_single_long {minTicks : ℤ} {ch n : ℕ} {tOn t : ℤ}
    (h : ¬ t - tOn < minTicks) :
    shortPairOffs minTicks [((ch, n), tOn, t)] = [] := by
  simp [shortPairOffs, List.filter_cons, h]

theorem fixStep_pairStep (minTicks : ℤ) (active : NoteStacks) (offs : MidiTrack)
    (ps : List NotePair) (e : ℤ × MidiMsg) (h : offs = shortPairOffs minTicks ps) :
    (fixStep minTicks (active, offs) e).1 = (pairStep (active, ps) e).1 ∧
      (fixStep minTicks (active, offs) e).2 =
        shortPairOffs minTicks (pairStep (active, ps) e).2 := by
  obtain ⟨t, m⟩ := e
  cases m with
  | noteOn ch n v =>
      by_cases hv : v > 0
      · constructor <;> simp [fixStep, pairStep, hv, h]
      · rw [show fixStep minTicks (active, offs) (t, MidiMsg.noteOn ch n v) =
            (match stackPop (ch, n) active with
             | none => (active, offs)
             | some (tOn, active') =>
                 if t - tOn < minTicks then
                   (active', offs ++ [(tOn + minTicks, MidiMsg.noteOff ch n 0)])
                 else (active', offs)) by simp [fixStep, hv],
           show pairStep (active, ps) (t, MidiMsg.noteOn ch n v) =
            (match stackPop (ch, n) active with
             | none => (active, ps)
             | some (tOn, active') => (active', ps ++ [((ch, n), tOn, t)])) by
              simp [pairStep, hv]]
        cases hpop : stackPop (ch, n) active with
        | none => exact ⟨rfl, h⟩
        | some q =>
            obtain ⟨tOn, active'⟩ := q
            by_cases hdur : t - tOn < minTicks
            · refine ⟨by simp [hdur], ?_⟩
              simp only [hdur, if_pos, shortPairOffs_append, shortPairOffs_single_short hdur, h]
            · refine ⟨by simp [hdur], ?_⟩
              simp only [hdur, if_neg, ite_false, shortPairOffs_append,
                shortPairOffs_single_long hdur, h, List.append_nil]
  | noteOff ch n v =>
      rw [show fixStep minTicks (active, offs) (t, MidiMsg.noteOff ch n v) =
          (match stackPop (ch, n) active with
           | none => (active, offs)
           | some (tOn, active') =>
               if t - tOn < minTicks then
                 (active', offs ++ [(tOn + minTicks, MidiMsg.noteOff ch n 0)])
               else (active', offs)) from rfl,
         show pairStep (active, ps) (t, MidiMsg.noteOff ch n v) =
          (match stackPop (ch, n) active with
           | none => (active, ps)
           | some (tOn, active') => (active', ps ++ [((ch, n), tOn, t)])) from rfl]
      cases hpop : stackPop (ch, n) active with
      | none => exact ⟨rfl, h⟩
      | some q =>
          obtain ⟨tOn, active'⟩ := q
          by_cases hdur : t - tOn < minTicks
          · refine ⟨by simp [hdur], ?_⟩
            simp only [hdur, if_pos, shortPairOffs_append, shortPairOffs_single_short hdur, h]
          · refine ⟨by simp [hdur], ?_⟩
            simp only [hdur, if_neg, ite_false, shortPairOffs_append,
              shortPairOffs_single_long hdur, h, List.append_nil]
  | controlChange ch c val => exact ⟨rfl, h⟩
  | programChange ch p => exact ⟨rfl, h⟩
  | pitchwheel ch p => exact ⟨rfl, h⟩
  | aftertouch ch val => exact ⟨rfl, h⟩
  | polytouch ch n val => exact ⟨rfl, h⟩
  | setTempo tp => exact ⟨rfl, h⟩
  | otherMeta tag => exact ⟨rfl, h⟩

theorem foldl_fixStep_pairStep (minTicks : ℤ) (l : MidiTrack) :
    ∀ (active : NoteStacks) (offs : MidiTrack) (ps : List NotePair),
      offs = shortPairOffs minTicks ps →
      (l.foldl (fixStep minTicks) (active, offs)).1 = (l.foldl pairStep (active, ps)).1 ∧
        (l.foldl (fixStep minTicks) (active, offs)).2 =
          shortPairOffs minTicks (l.foldl pairStep (active, ps)).2 := by
  induction l with
  | nil => exact fun active offs ps h => ⟨rfl, h⟩
  | cons e rest ih =>
      intro active offs ps h
      obtain ⟨h1, h2⟩ := fixStep_pairStep minTicks active offs ps e h
      have hfix : fixStep minTicks (active, offs) e =
          ((pairStep (active, ps) e).1, (fixStep minTicks (active, offs) e).2) := by
        rw [← h1]
      rw [List.foldl_cons, List.foldl_cons, hfix,
        show pairStep (active, ps) e = ((pairStep (active, ps) e).1, (pairStep (active, ps) e).2)
          from rfl]
      exact ih _ _ _ h2

theorem orphanOffs_eq_spec (minTicks : ℤ) (active : NoteStacks) :
    orphanOffs minTicks active =
      orphanPairOffs minTicks
        (active.foldr (fun kv acc => kv.2.map (fun t => (kv.1, t)) ++ acc) []) := by
  induction active with
  | nil => rfl
  | cons kv rest ih =>
      rw [orphanOffs, List.foldr_cons, List.foldr_cons, ← orphanOffs]
      rw [show orphanPairOffs minTicks
            (kv.2.map (fun t => (kv.1, t)) ++
              rest.foldr (fun kv acc => kv.2.map (fun t => (kv.1, t)) ++ acc) []) =
          (kv.2.map (fun t => (kv.1, t))).map
              (fun o => (o.2 + minTicks, MidiMsg.noteOff o.1.1 o.1.2 0)) ++
            orphanPairOffs minTicks
              (rest.foldr (fun kv acc => kv.2.map (fun t => (kv.1, t)) ++ acc) []) by
        simp [orphanPairOffs]]
      rw [List.map_map, ← ih]
      rfl

/-! ## Lemmas about the panic flush -/

theorem isNote_noteOn (ch n v : ℕ) : (MidiMsg.noteOn ch n v).isNote = true := rfl

theorem isNote_noteOff (ch n v : ℕ) : (MidiMsg.noteOff ch n v).isNote = true := rfl

theorem isNote_controlChange (ch c v : ℕ) : (MidiMsg.controlChange ch c v).isNote = false := rfl

theorem noteBlock_filter_nonNote (ch : ℕ) (l : List ℕ) :
    ((l.foldr (fun n acc => MidiMsg.noteOn ch n 0 :: MidiMsg.noteOff ch n 0 :: acc) []).filter
      (fun m => ! m.isNote)) = [] := by
  induction l with
  | nil => rfl
  | cons n rest ih =>
      rw [List.foldr_cons, List.filter_cons, List.filter_cons]
      simp only [isNote_noteOn, isNote_noteOff, Bool.not_true, if_neg, ih]
      simp

theorem noteBlock_filter_note (ch : ℕ) (l : List ℕ) :
    ((l.foldr (fun n acc => MidiMsg.noteOn ch n 0 :: MidiMsg.noteOff ch n 0 :: acc) []).filter
      (fun m => m.isNote)).length = 2 * l.length := by
  induction l with
  | nil => rfl
  | cons n rest ih =>
      rw [List.foldr_cons, List.filter_cons, List.filter_cons]
      simp only [isNote_noteOn, isNote_noteOff, if_pos, List.length_cons, ih, List.length_cons]
      omega

theorem channelFlush_filter_nonNote (ch : ℕ) :
    (channelFlushMsgs ch).filter (fun m => ! m.isNote) =
      [MidiMsg.controlChange ch 120 0, MidiMsg.controlChange ch 123 0,
       MidiMsg.controlChange ch 121 0, MidiMsg.controlChange ch 64 0,
       MidiMsg.controlChange ch 67 0, MidiMsg.controlChange ch 66 0] := by
  rw [channelFlushMsgs, List.filter_append, List.filter_append, noteBlock_filter_nonNote]
  rw [List.filter_cons, List.filter_cons, List.filter_cons, List.filter_cons,
    List.filter_cons, List.filter_cons]
  simp only [isNote_controlChange, Bool.not_false, if_pos, List.filter_nil]
  simp

theorem channelFlush_filter_note (ch : ℕ) :
    ((channelFlushMsgs ch).filter (fun m => m.isNote)).length = 256 := by
  rw [channelFlushMsgs, List.filter_append, List.filter_append]
  rw [List.length_append, List.length_append, noteBlock_filter_note]
  rw [List.filter_cons, List.filter_cons, List.filter_cons, List.filter_cons,
    List.filter_cons, List.filter_cons]
  simp only [isNote_controlChange, List.filter_nil]
  simp [List.length_range]

theorem panicRoundList_filter_nonNote (l : List ℕ) :
    ((l.foldr (fun ch acc => channelFlushMsgs ch ++ acc) []).filter
      (fun m => ! m.isNote)).length = 6 * l.length := by
  induction l with
  | nil => rfl
  | cons ch rest ih =>
      rw [List.foldr_cons, List.filter_append, List.length_append, ih,
        channelFlush_filter_nonNote]
      simp only [List.length_cons, List.length_nil]
      omega

theorem panicRound_filter_nonNote :
    (panicRound.filter (fun m => ! m.isNote)).length = 96 := by
  rw [panicRound, panicRoundList_filter_nonNote, List.length_range]

theorem comprehensiveAllNotesOff_nonNote_count :
    (comprehensiveAllNotesOff.filter (fun m => ! m.isNote)).length = 288 := by
  rw [comprehensiveAllNotesOff, List.filter_append, List.filter_append,
    List.length_append, List.length_append, panicRound_filter_nonNote]

theorem noteBlock_eq_flatMap (ch : ℕ) (l : List ℕ) :
    l.flatMap (fun n => [MidiMsg.noteOn ch n 0, MidiMsg.noteOff ch n 0]) =
      l.foldr (fun n acc => MidiMsg.noteOn ch n 0 :: MidiMsg.noteOff ch n 0 :: acc) [] := by
  induction l with
  | nil => rfl
  | cons n rest ih => rw [List.flatMap_cons, List.foldr_cons, ← ih]; rfl

theorem channelFlush_eq_spec (ch : ℕ) : channelFlushMsgs ch = specChannelFlush ch := by
  rw [channelFlushMsgs, specChannelFlush, noteBlock_eq_flatMap]
  rfl

theorem panicRound_eq_spec : panicRound = (List.range 16).flatMap specChannelFlush := by
  rw [panicRound]
  generalize List.range 16 = l
  induction l with
  | nil => rfl
  | cons ch rest ih => rw [List.flatMap_cons, List.foldr_cons, ih, channelFlush_eq_spec]

theorem comprehensiveAllNotesOff_eq_spec : comprehensiveAllNotesOff = specPanicFlush := by
  rw [comprehensiveAllNotesOff, specPanicFlush, show List.range 3 = [0, 1, 2] from rfl]
  rw [List.flatMap_cons, List.flatMap_cons, List.flatMap_cons, List.flatMap_nil,
    panicRound_eq_spec]
  rw [List.append_nil, List.append_assoc]

/-! ## Lemmas about the tempo scan and the emergency stop -/

theorem fileTempo_foldl (tracks : List MidiTrack) (acc : ℕ) :
    tracks.foldl (fun acc track => (firstTempoOfTrack track).getD acc) acc =
      ((tracks.filterMap firstTempoOfTrack).getLast?).getD acc := by
  induction tracks generalizing acc with
  | nil => rfl
  | cons t ts ih =>
      rw [List.foldl_cons, ih, List.filterMap_cons]
      cases ht : firstTempoOfTrack t with
      | none => rfl
      | some v =>
          simp only [Option.getD_some]
          cases hts : ts.filterMap firstTempoOfTrack with
          | nil => rfl
          | cons w ws =>
              rw [List.getLast?_cons_cons]
              cases hgl : (w :: ws).getLast? with
              | none => exact absurd hgl (by simp)
              | some u => rfl

theorem emergencyReleaseLoop_map_fst (outCh : ℕ) (sendOk : ℕ → Bool) (l : List ℕ) :
    (emergencyReleaseLoop outCh sendOk l).map Prod.fst =
      l.map (fun n => MidiMsg.noteOn outCh n 0) := by
  induction l with
  | nil => rfl
  | cons n rest ih => rw [emergencyReleaseLoop, List.map_cons, List.map_cons, ih]

theorem notesToStop_mem_of_sounding {sounding recentNotes sentOff : List ℕ} {n : ℕ}
    (hn : n ∈ sounding) (hns : ¬ n ∈ sentOff) :
    n ∈ notesToStop sounding recentNotes sentOff := by
  have hbase : n ∈ sounding.filter (fun n => ¬ n ∈ sentOff) := by
    rw [List.mem_filter]
    exact ⟨hn, by simpa using hns⟩
  have hsub : ∀ (l : List ℕ) (acc : List ℕ), n ∈ acc →
      n ∈ l.foldl (fun acc n => if n ∈ sentOff ∨ n ∈ acc then acc else acc ++ [n]) acc := by
    intro l
    induction l with
    | nil => exact fun acc h => h
    | cons m rest ih =>
        intro acc h
        rw [List.foldl_cons]
        by_cases hm : m ∈ sentOff ∨ m ∈ acc
        · rw [if_pos hm]; exact ih acc h
        · rw [if_neg hm]; exact ih _ (List.mem_append_left _ h)
  have hw := hsub recentNotes _ hbase
  rw [notesToStop]
  have hne : ¬ (recentNotes.foldl
      (fun acc n => if n ∈ sentOff ∨ n ∈ acc then acc else acc ++ [n])
      (sounding.filter (fun n => ¬ n ∈ sentOff))) = [] := by
    intro heq
    rw [heq] at hw
    simp at hw
  simp only [if_neg hne]
  exact hw

theorem notesToStop_fallback : notesToStop [] [] [] = List.range' 36 46 := rfl

/-! ## Claim theorems -/

/-- C1: for every minimum-duration threshold and every input track, the
output of `fix_short_notes` is a permutation-superset of the input: the
sorted output consists exactly of the original events (each at its original
absolute time, message fields unchanged, as the events of
`absoluteMessages` carry the unmodified messages of the track) together
with the additional synthetic events, every one of which is a `note_off`
with velocity 0; re-deriving absolute times from the emitted delta times
gives back the sorted absolute timeline, so no original event is deleted or
modified.  At file level `fix_short_notes` is exactly this per-track
transform. -/
theorem fix_short_notes_original_events_superset :
    (∀ (minTicks : ℤ) (track : MidiTrack),
      (fixTrackSorted minTicks track).Perm
          (absoluteMessages 0 track ++ additionalNoteOffs minTicks (absoluteMessages 0 track)) ∧
        (absoluteMessages 0 track).map Prod.snd = track.map Prod.snd ∧
        (∀ p ∈ additionalNoteOffs minTicks (absoluteMessages 0 track),
          ∃ ch n, p.2 = MidiMsg.noteOff ch n 0) ∧
        absoluteMessages 0 (fixTrack minTicks track) = fixTrackSorted minTicks track ∧
        ∀ p ∈ absoluteMessages 0 track, p ∈ fixTrackSorted minTicks track) ∧
      ∀ (ms tpb : ℕ) (tracks : List MidiTrack),
        fixShortNotes ms tpb tracks =
          tracks.map (fixTrack ((minDurationTicks ms tpb (fileTempo tracks) : ℕ) : ℤ)) := by
  constructor
  · intro minTicks track
    refine ⟨sortByTime_perm _, absoluteMessages_map_snd 0 track,
      additionalNoteOffs_shape minTicks _, ?_, ?_⟩
    · show absoluteMessages 0 (toDeltas 0 (fixTrackSorted minTicks track)) =
        fixTrackSorted minTicks track
      exact absoluteMessages_toDeltas 0 _
    · intro p hp
      exact (sortByTime_perm _).mem_iff.mpr (List.mem_append_left _ hp)
  · intro ms tpb tracks
    rfl

/-- C1 witness: on the spec's own scenario (attack at tick 0, release at
tick 10, threshold 50 ticks) the original attack is present in the output
timeline. -/
theorem fix_short_notes_superset_witness :
    ((0 : ℤ), MidiMsg.noteOn 0 64 100) ∈
      fixTrackSorted 50 [(0, MidiMsg.noteOn 0 64 100), (10, MidiMsg.noteOff 0 64 0)] :=
  (fix_short_notes_original_events_superset.1 50
      [(0, MidiMsg.noteOn 0 64 100), (10, MidiMsg.noteOff 0 64 0)]).2.2.2.2
    ((0 : ℤ), MidiMsg.noteOn 0 64 100) (by decide)

/-- C2: the additional `note_off` list produced by the walk of
`fix_short_notes` is exactly what the spec's LIFO pairing prescribes: for
every matched pair with duration `< min_duration_ticks` exactly one
synthetic release at `attack_time + min_duration_ticks`, nothing for pairs
with duration `≥ min_duration_ticks`, and one synthetic release at
`attack_time + min_duration_ticks` for every attack left unmatched at
track end. -/
theorem additionalNoteOffs_eq_lifo_spec (minTicks : ℤ) (l : MidiTrack) :
    additionalNoteOffs minTicks l =
      shortPairOffs minTicks (specLifoPairs l).1 ++
        orphanPairOffs minTicks (specLifoPairs l).2 := by
  simp only [additionalNoteOffs, specLifoPairs]
  obtain ⟨h1, h2⟩ := foldl_fixStep_pairStep minTicks l [] [] [] rfl
  rw [h2, h1, orphanOffs_eq_spec]

/-- C3 (code-bug exhibit): `threading.Timer.cancel` cannot stop a callback
that has already passed its `finished`-event check, so when a new attack on
the same note arrives at (or just after) the old timer's deadline, the old
callback can run after the new attack's critical section.  Its
check (`note in active_notes and note not in notes_sent_off`) then
passes — the new attack reset exactly those flags — and it emits the new
attack's release immediately, at the *old* deadline (time 10), before the
new attack's own delay elapses (its deadline is 20); the new attack's own
timer is then a no-op.  The claim requires the stale firing to be a no-op
and the release of the newer attack not to precede its delay; the run below
violates it. -/
theorem empads_stale_timer_fires_early :
    (runEmpads 0 10 initEmpads
        [EmpadsAct.attack 0 60 100, EmpadsAct.attack 10 60 100, EmpadsAct.fire 0 10]).out =
      [(0, MidiMsg.noteOn 0 60 100), (10, MidiMsg.noteOn 0 60 100),
        (10, MidiMsg.noteOn 0 60 0)] ∧
    (runEmpads 0 10 initEmpads
        [EmpadsAct.attack 0 60 100, EmpadsAct.attack 10 60 100, EmpadsAct.fire 0 10,
          EmpadsAct.fire 1 20]).out =
      [(0, MidiMsg.noteOn 0 60 100), (10, MidiMsg.noteOn 0 60 100),
        (10, MidiMsg.noteOn 0 60 0)] ∧
    (10 : ℤ) < 10 + 10 := by decide

/-- C4 counterexample: the panic flush contains 288 non-note messages
across the 16 channels over the 3 rounds (6 control changes per channel
per round), not the 336 the claim states. -/
theorem panic_nonNote_count_not_336 :
    ¬ (comprehensiveAllNotesOff.filter (fun m => ! m.isNote)).length = 336 := by
  intro h
  rw [comprehensiveAllNotesOff_nonNote_count] at h
  exact absurd h (by decide)

/-- C4 (amended): one call to the panic flush emits, in order, for each of
3 rounds and within each round for each of the 16 channels: CC120=0,
CC123=0, then for every note 0..127 both a velocity-0 note_on and an
explicit note_off, then CC121=0, CC64=0, CC67=0, CC66=0 — i.e. exactly the
spec-ordered sequence — with 288 (not 336) non-note messages across the 16
channels over the 3 rounds, plus 128×2 note messages per channel per
round. -/
theorem comprehensiveAllNotesOff_structure :
    comprehensiveAllNotesOff = specPanicFlush ∧
      (comprehensiveAllNotesOff.filter (fun m => ! m.isNote)).length = 288 ∧
      ∀ ch : ℕ, ((channelFlushMsgs ch).filter (fun m => m.isNote)).length = 256 :=
  ⟨comprehensiveAllNotesOff_eq_spec, comprehensiveAllNotesOff_nonNote_count,
    channelFlush_filter_note⟩

/-- C5 counterexample: in a file whose first track sets tempo 600000 and
whose second track sets tempo 300000, `fix_short_notes` uses 300000,
whereas the tempo event found earliest in the file is 600000. -/
theorem fileTempo_not_earliest :
    fileTempo [[(0, MidiMsg.setTempo 600000)], [(0, MidiMsg.setTempo 300000)]] = 300000 ∧
      specEarliestTempo [[(0, MidiMsg.setTempo 600000)], [(0, MidiMsg.setTempo 300000)]] =
        600000 ∧
      (300000 : ℕ) ≠ 600000 :=
  ⟨rfl, rfl, by decide⟩

/-- C5 (amended): the tempo used by `fix_short_notes` is 500000 (the
120-BPM default) when no track contains a tempo event; otherwise it is the
*first* tempo event of the *last* track that contains any tempo event (the
scan's `break` only leaves the per-track loop, so later tracks
overwrite). -/
theorem fileTempo_eq_last_track_tempo (tracks : List MidiTrack) :
    fileTempo tracks = ((tracks.filterMap firstTempoOfTrack).getLast?).getD 500000 :=
  fileTempo_foldl tracks 500000

/-- C6 counterexample: with `min_duration_ms = 1`, `ticks_per_beat = 3`
and `microseconds_per_beat = 4000` the exact quotient is 0.75;
`fix_short_notes` computes 0 (truncation), the claimed rounding gives 1. -/
theorem minDurationTicks_not_round :
    (minDurationTicks 1 3 4000 : ℤ) = 0 ∧ specRoundTicks 1 3 4000 = 1 := by
  constructor
  · rfl
  · rw [specRoundTicks]
    norm_num [round_eq]

/-- C6 (amended): the threshold used by `fix_short_notes` is the *floor*
(Python `int(·)` truncation of a non-negative quotient) of
`min_duration_ms * 1000 * ticks_per_beat / microseconds_per_beat`, not its
rounding. -/
theorem minDurationTicks_eq_floor (ms tpb us : ℕ) :
    (minDurationTicks ms tpb us : ℤ) = ⌊(ms * 1000 * tpb : ℚ) / (us : ℚ)⌋ := by
  rw [show ((ms : ℚ) * 1000 * (tpb : ℚ)) = ((ms * 1000 * tpb : ℕ) : ℚ) by push_cast; ring]
  rw [Rat.floor_natCast_div_natCast, minDurationTicks]
  exact Int.ofNat_ediv _ _

/-- C7 counterexample: an `aftertouch` message on the instrument's input
channel, with the instrument enabled, is *not* claimed (it falls through to
the final `return False`), although it carries a channel equal to the
input channel. -/
theorem processClaimed_not_iff_channel :
    ¬ (processClaimed true 0 (MidiMsg.aftertouch 0 64) = true ↔
        (MidiMsg.aftertouch 0 64).channelOf = some 0) := by decide

/-- C7 (amended): `Empads.process_message` returns `True` iff the
instrument is enabled, the message carries a channel equal to the
instrument's input channel, *and* the message kind is one of `note_on`,
`note_off`, `control_change`, `program_change`, `pitchwheel`; `aftertouch`
and `polytouch` messages on the instrument's channel are not claimed, and
nothing is claimed when disabled or on another channel. -/
theorem processClaimed_iff (enabled : Bool) (midiChannel : ℕ) (msg : MidiMsg) :
    processClaimed enabled midiChannel msg = true ↔
      enabled = true ∧ msg.channelOf = some midiChannel ∧ claimableKind msg = true := by
  cases enabled <;> cases msg <;>
    simp [processClaimed, claimableKind, isMyChannel, MidiMsg.channelOf]

/-- C8: `Empads.emergency_stop_all_notes` clears the pending-timer table
and every note set, attempts one release (`note_on` velocity 0 on the
output channel) for every note of `notesToStop` — which contains every note
currently sounding and not yet released — falls back to the fixed drum
range 36..81 when no notes are tracked, ends with exactly one
`ControlChange(123, 0)` on the output channel, and never curtails the
sequence on send failures: the attempted messages are the same for every
failure pattern of the sink. -/
theorem emergencyStopAll_spec (outCh : ℕ) (sendOk : ℕ → Bool) (ccOk : Bool)
    (s : EmpadsSets) :
    ((emergencyStopAll outCh sendOk ccOk s).1.map Prod.fst =
        (notesToStop s.sounding s.recentNotes s.sentOff).map
            (fun n => MidiMsg.noteOn outCh n 0) ++
          [MidiMsg.controlChange outCh 123 0]) ∧
      (∀ n, n ∈ s.sounding → ¬ n ∈ s.sentOff →
        MidiMsg.noteOn outCh n 0 ∈ (emergencyStopAll outCh sendOk ccOk s).1.map Prod.fst) ∧
      (s.sounding = [] → s.recentNotes = [] →
        (emergencyStopAll outCh sendOk ccOk s).1.map Prod.fst =
          (List.range' 36 46).map (fun n => MidiMsg.noteOn outCh n 0) ++
            [MidiMsg.controlChange outCh 123 0]) ∧
      (((emergencyStopAll outCh sendOk ccOk s).1.map Prod.fst).count
          (MidiMsg.controlChange outCh 123 0) = 1) ∧
      ((emergencyStopAll outCh sendOk ccOk s).1.map Prod.fst =
        (emergencyStopAll outCh (fun _ => true) true s).1.map Prod.fst) ∧
      (emergencyStopAll outCh sendOk ccOk s).2.pendingTimerNotes = [] ∧
      (emergencyStopAll outCh sendOk ccOk s).2.sounding = [] ∧
      (emergencyStopAll outCh sendOk ccOk s).2.sentOff = [] := by
  have hmap : ∀ (ok : ℕ → Bool) (cok : Bool),
      (emergencyStopAll outCh ok cok s).1.map Prod.fst =
        (notesToStop s.sounding s.recentNotes s.sentOff).map
            (fun n => MidiMsg.noteOn outCh n 0) ++
          [MidiMsg.controlChange outCh 123 0] := by
    intro ok cok
    rw [emergencyStopAll]
    rw [List.map_append, emergencyReleaseLoop_map_fst]
    rfl
  have hzero : ((notesToStop s.sounding s.recentNotes s.sentOff).map
      (fun n => MidiMsg.noteOn outCh n 0)).count (MidiMsg.controlChange outCh 123 0) = 0 := by
    rw [List.count_eq_zero]
    intro hmem
    rcases List.mem_map.mp hmem with ⟨n, _, h⟩
    exact absurd h (by simp)
  refine ⟨hmap sendOk ccOk, ?_, ?_, ?_, ?_, rfl, rfl, rfl⟩
  · intro n hn hns
    rw [hmap]
    exact List.mem_append_left _
      (List.mem_map.mpr ⟨n, notesToStop_mem_of_sounding hn hns, rfl⟩)
  · intro h1 h2
    rw [hmap]
    rw [show notesToStop s.sounding s.recentNotes s.sentOff = List.range' 36 46 by
      rw [h1, h2]; rfl]
  · rw [hmap, List.count_append, hzero]
    simp [List.count_cons]
  · rw [hmap, hmap]

/-- C8 witness: with note 60 sounding and not yet released, a failing sink
for note 60 and a failing All-Notes-Off send, the release for note 60 is
still among the attempted messages. -/
theorem emergencyStopAll_spec_witness :
    MidiMsg.noteOn 2 60 0 ∈
      (emergencyStopAll 2 (fun n => decide (n = 61)) false
        ⟨[(60, 0)], [60], [], [62]⟩).1.map Prod.fst :=
  (emergencyStopAll_spec 2 (fun n => decide (n = 61)) false
      ⟨[(60, 0)], [60], [], [62]⟩).2.1 60 (by decide) (by decide)

/-- C9: in the sorted output timeline of `fix_short_notes`, the events at
any fixed absolute time `t` are exactly the original events at `t` (in
input order) followed by the synthetic `note_off`s at `t`, so every
original event at a time shared with a synthetic `note_off` precedes it;
and when the input deltas are non-negative and the threshold is
non-negative, every re-derived delta time of the output track is
non-negative. -/
theorem fixTrack_stable_order_and_deltas (minTicks : ℤ) (track : MidiTrack)
    (hmt : 0 ≤ minTicks) (hd : ∀ p ∈ track, 0 ≤ p.1) :
    (∀ t : ℤ, (fixTrackSorted minTicks track).filter (fun p => decide (p.1 = t)) =
        (absoluteMessages 0 track).filter (fun p => decide (p.1 = t)) ++
          (additionalNoteOffs minTicks (absoluteMessages 0 track)).filter
            (fun p => decide (p.1 = t))) ∧
      ∀ q ∈ fixTrack minTicks track, 0 ≤ q.1 := by
  constructor
  · intro t
    rw [fixTrackSorted, filter_sortByTime, List.filter_append]
  · have habs : ∀ q ∈ absoluteMessages 0 track, 0 ≤ q.1 :=
      absoluteMessages_time_nonneg le_rfl hd
    have hadd : ∀ q ∈ additionalNoteOffs minTicks (absoluteMessages 0 track), 0 ≤ q.1 :=
      additionalNoteOffs_nonneg hmt habs
    have hall : ∀ q ∈ fixTrackSorted minTicks track, 0 ≤ q.1 := by
      intro q hq
      rcases List.mem_append.mp ((sortByTime_perm _).mem_iff.mp hq) with h | h
      exacts [habs q h, hadd q h]
    show ∀ q ∈ toDeltas 0 (fixTrackSorted minTicks track), 0 ≤ q.1
    exact toDeltas_nonneg (sorted_sortByTime _) hall

/-- C9 witness: on the attack-at-0 / release-at-10 / threshold-50 track,
the events at absolute time 50 are the synthetic release alone, in the
prescribed original-then-synthetic order. -/
theorem fixTrack_stable_order_witness :
    (fixTrackSorted 50 [(0, MidiMsg.noteOn 0 64 100), (10, MidiMsg.noteOff 0 64 0)]).filter
        (fun p => decide (p.1 = (50 : ℤ))) =
      (absoluteMessages 0 [(0, MidiMsg.noteOn 0 64 100), (10, MidiMsg.noteOff 0 64 0)]).filter
          (fun p => decide (p.1 = (50 : ℤ))) ++
        (additionalNoteOffs 50
            (absoluteMessages 0
              [(0, MidiMsg.noteOn 0 64 100), (10, MidiMsg.noteOff 0 64 0)])).filter
          (fun p => decide (p.1 = (50 : ℤ))) :=
  (fixTrack_stable_order_and_deltas 50
      [(0, MidiMsg.noteOn 0 64 100), (10, MidiMsg.noteOff 0 64 0)]
      (by decide) (by decide)).1 50

/-- C10: after `set_output_channel(c)` the stored output channel equals
`max(0, min(15, c))`, and is therefore always within the valid MIDI range
0..15: out-of-range requests are clamped, not rejected. -/
theorem setOutputChannel_clamps (c : ℤ) :
    setOutputChannel c = max 0 (min 15 c) ∧
      0 ≤ setOutputChannel c ∧ setOutputChannel c ≤ 15 := by
  refine ⟨rfl, ?_, ?_⟩ <;> rw [setOutputChannel] <;> omega
